import Mathlib

/-!
Verification of the LRU cache of `src/include/Cache.h` (template class
`Cache<key_type, value_type>`) against its natural-language specification.

The C++ class is shallowly embedded as follows.

* `std::map<key_type, cached_value> table` is modelled as an association
  list `List (K × V)`; `std::map::find`, `::insert` (which does not
  overwrite an existing key) and `::erase` become `tableFind`,
  `tableInsert` and `tableErase`.  The program only ever erases or
  updates keys while the key set is duplicate-free (an invariant proved
  below as `WF`), so operating on the first matching entry coincides
  with `std::map` behaviour.
* `std::list<key_type> lru_list` is a `List K`, front first.  The
  iterator `cache_i` stored next to each value always designates the
  unique `lru_list` node holding that entry's key, so
  `lru_list.splice(lru_list.begin(), lru_list, li)` is modelled as
  moving the (unique) occurrence of the key to the front
  (`key :: removeKey key lru_list`).
* The `int` statistics counters start at 0 and are only ever
  incremented, so they are modelled as `Nat` (no execution relevant to
  the claims overflows; signed overflow would be undefined behaviour).
* The constructor `Cache(int size) : maxsize(size) {}` converts the
  `int` argument to the `unsigned` member `maxsize`; the conversion is
  reduction modulo 2^32 (`toUnsigned`).
* `value_type* find(const key_type&)` both returns a result and mutates
  the cache, so it is modelled as `Cache.find : Cache K V → K →
  Option V × Cache K V`; the null-pointer "not found" result is `none`.
  `insert`'s write through the returned pointer (`*valptr = value`)
  becomes `tableUpdate` on the entry the pointer designates.
* `statistics(std::ostream&)` is a `const` member that only writes
  text; it is modelled as the pure function `Cache.statistics`
  returning the four output lines as (label, printed value) pairs, in
  the order the code emits them.
-/

namespace LRUModel

/-- The private nested `struct cache_statistics` of `Cache`: four
counters, all zero-initialised by its constructor.  The `miss` field is
declared and initialised by the source but never incremented anywhere. -/
structure cache_statistics where
  found_hits : Nat
  found : Nat
  removed : Nat
  miss : Nat
deriving DecidableEq

/-- The state of a `Cache<key_type, value_type>` object: the capacity
`maxsize`, the recency list `lru_list` (most recently used at the
front), the key-value `table`, and the statistics counters. -/
structure Cache (K V : Type) where
  maxsize : Nat
  lru_list : List K
  table : List (K × V)
  stats : cache_statistics
deriving DecidableEq

variable {K V : Type} [DecidableEq K]

/-- Conversion of the constructor's `int size` argument to the
`unsigned` member `maxsize`: reduction modulo 2^32. -/
def toUnsigned (size : Int) : Nat := (size % (2 ^ 32)).toNat

/-- The constructor `Cache(int size) : maxsize(size) {}`: it records the
capacity (converted to `unsigned`) and leaves `lru_list`, `table` and
`stats` default-initialised (empty, empty, all-zero).  It performs no
validation of `size`. -/
def mkCache (size : Int) : Cache K V :=
  { maxsize := toUnsigned size, lru_list := [], table := [], stats := ⟨0, 0, 0, 0⟩ }

/-- `table.find(key)`: the value stored under `key`, or `none` when the
key is absent (`std::map::find` returning `end()`). -/
def tableFind (key : K) : List (K × V) → Option V
  | [] => none
  | p :: t => if p.1 = key then some p.2 else tableFind key t

/-- `table.insert(make_pair(key, cv))`: like `std::map::insert`, adds
the pair only when the key is not already present. -/
def tableInsert (key : K) (value : V) (t : List (K × V)) : List (K × V) :=
  match tableFind key t with
  | some _ => t
  | none => (key, value) :: t

/-- `table.erase(key)`: removes the entry holding `key` (the first
matching entry; under the `WF` invariant keys are unique, matching
`std::map`). -/
def tableErase (key : K) : List (K × V) → List (K × V)
  | [] => []
  | p :: t => if p.1 = key then t else p :: tableErase key t

/-- The write `*valptr = value` through the pointer returned by `find`:
it overwrites the value of the entry holding `key` in place. -/
def tableUpdate (key : K) (value : V) : List (K × V) → List (K × V)
  | [] => []
  | p :: t => if p.1 = key then (key, value) :: t else p :: tableUpdate key value t

/-- Removal of the (unique, under `WF`) occurrence of `key` from the
recency list, the effect on the element sequence of splicing that node
out of `lru_list`. -/
def removeKey (key : K) : List K → List K
  | [] => []
  | a :: t => if a = key then t else a :: removeKey key t

/-- `value_type* Cache::find(const key_type& key)`: unconditionally
increments `found_hits`; on a miss returns the null pointer (`none`);
on a hit increments `found`, splices the key's node to the front of
`lru_list`, and returns (a pointer to) the stored value. -/
def Cache.find (c : Cache K V) (key : K) : Option V × Cache K V :=
  let c1 : Cache K V :=
    { c with stats := { c.stats with found_hits := c.stats.found_hits + 1 } }
  match tableFind key c.table with
  | none => (none, c1)
  | some v =>
      (some v,
        { c1 with
          stats := { c1.stats with found := c1.stats.found + 1 },
          lru_list := key :: removeKey key c1.lru_list })

/-- `void Cache::insert(const key_type& key, const value_type& value)`:
first calls `find(key)`.  If the key was found the stored value is
overwritten through the returned pointer.  Otherwise the key is pushed
to the front of `lru_list` and inserted into `table`; if the list size
now exceeds `maxsize`, the key at the back of `lru_list` is erased from
`table`, popped off the list, and `removed` is incremented. -/
def Cache.insert (c : Cache K V) (key : K) (value : V) : Cache K V :=
  let r := c.find key
  let c1 := r.2
  if r.1.isSome then
    { c1 with table := tableUpdate key value c1.table }
  else
    let l := key :: c1.lru_list
    let c2 : Cache K V := { c1 with lru_list := l, table := tableInsert key value c1.table }
    if l.length > c2.maxsize then
      { c2 with
        table := tableErase (l.getLast (List.cons_ne_nil _ _)) c2.table,
        lru_list := l.dropLast,
        stats := { c2.stats with removed := c2.stats.removed + 1 } }
    else c2

/-- `void Cache::statistics(std::ostream& out) const`: writes four
lines, each a fixed label followed by a counter value, in this order;
the missed count is printed as `found_hits - found`, it is not read
from the (never-incremented) `miss` field. -/
def Cache.statistics (c : Cache K V) : List (String × Nat) :=
  [ ("cache found hits:", c.stats.found_hits),
    ("cache found     :", c.stats.found),
    ("cache removed   :", c.stats.removed),
    ("cache missed    :", c.stats.found_hits - c.stats.found) ]

/-- The number of resident entries (the spec's `size()`). -/
def Cache.size (c : Cache K V) : Nat := c.table.length

/-- A public operation of the cache: a lookup or an upsert. -/
inductive Op (K V : Type) where
  | find (key : K)
  | insert (key : K) (value : V)

/-- One public operation applied to the cache state. -/
def Cache.step (c : Cache K V) : Op K V → Cache K V
  | .find k => (c.find k).2
  | .insert k v => c.insert k v

/-- A sequence of public operations applied in order. -/
def Cache.run (c : Cache K V) : List (Op K V) → Cache K V
  | [] => c
  | op :: ops => (c.step op).run ops

/-- A sequence of `insert` calls applied in order. -/
def Cache.runInserts (c : Cache K V) : List (K × V) → Cache K V
  | [] => c
  | p :: ps => (c.insert p.1 p.2).runInserts ps

/-- A sequence of `find` calls applied in order (results discarded). -/
def Cache.runFinds (c : Cache K V) : List K → Cache K V
  | [] => c
  | k :: ks => ((c.find k).2).runFinds ks

/-- The number of hits among a sequence of `find` calls. -/
def Cache.findHits (c : Cache K V) : List K → Nat
  | [] => 0
  | k :: ks =>
      (if (tableFind k c.table).isSome then 1 else 0) + ((c.find k).2).findHits ks

/-- Observer for `insert`'s eviction branch: the key `insert key _`
would evict from cache state `c` (`none` when no eviction occurs).
This mirrors the guard and the `lru_list.back()` read of the source. -/
def Cache.insertEvicted (c : Cache K V) (key : K) : Option K :=
  match tableFind key c.table with
  | some _ => none
  | none =>
      if (key :: c.lru_list).length > c.maxsize then
        some ((key :: c.lru_list).getLast (List.cons_ne_nil _ _))
      else none

/-- The number of eviction-triggering inserts in an operation sequence. -/
def Cache.evictCount (c : Cache K V) : List (Op K V) → Nat
  | [] => 0
  | op :: ops =>
      (match op with
        | .find _ => 0
        | .insert k _ => if (c.insertEvicted k).isSome then 1 else 0)
      + (c.step op).evictCount ops

/-- The keys of the table, in entry order. -/
def keys (t : List (K × V)) : List K := t.map Prod.fst

/-- The structural invariant of the cache: the recency list and the key
set of the table are duplicate-free and carry exactly the same keys,
at most `maxsize` entries are resident, and `found` never exceeds
`found_hits`. -/
structure WF (c : Cache K V) : Prop where
  nodup_lru : c.lru_list.Nodup
  nodup_keys : (keys c.table).Nodup
  mem_iff : ∀ k : K, k ∈ c.lru_list ↔ k ∈ keys c.table
  size_le : c.lru_list.length ≤ c.maxsize
  found_le : c.stats.found ≤ c.stats.found_hits

/-- Ghost-instrumented state for reasoning about recency: the cache
together with a step counter `time` and, for each key, the time
`last k` of its most recent touch (a hit of `find`, or an `insert`). -/
structure IState (K V : Type) where
  cache : Cache K V
  time : Nat
  last : K → Nat

/-- Pointwise update of the ghost last-touch map. -/
def updLast (f : K → Nat) (key : K) (t : Nat) : K → Nat :=
  fun a => if a = key then t else f a

/-- One public operation together with its ghost bookkeeping: the clock
advances by one; a hit `find` or any `insert` records the new time as
the touched key's last-touch time. -/
def istep (s : IState K V) : Op K V → IState K V
  | .find k =>
      { cache := (s.cache.find k).2, time := s.time + 1,
        last := if (tableFind k s.cache.table).isSome
                then updLast s.last k (s.time + 1) else s.last }
  | .insert k v =>
      { cache := s.cache.insert k v, time := s.time + 1,
        last := updLast s.last k (s.time + 1) }

/-- A sequence of instrumented operations. -/
def irun (s : IState K V) : List (Op K V) → IState K V
  | [] => s
  | op :: ops => irun (istep s op) ops

/-- Instrumented initial state for a freshly constructed cache. -/
def iinit (size : Int) : IState K V := ⟨mkCache size, 0, fun _ => 0⟩

/-- The recency invariant: the cache is well formed, the recency list
is strictly sorted by decreasing last-touch time, and every recorded
last-touch time is in the past. -/
structure RInv (s : IState K V) : Prop where
  wf : WF s.cache
  sorted : s.cache.lru_list.Pairwise (fun a b => s.last b < s.last a)
  le_time : ∀ k ∈ s.cache.lru_list, s.last k ≤ s.time

theorem tableFind_eq_none_iff (key : K) (t : List (K × V)) :
    tableFind key t = none ↔ key ∉ keys t := by
  induction t with
  | nil => simp [tableFind, keys]
  | cons p t ih =>
      by_cases h : p.1 = key
      · simp [tableFind, h, keys]
      · simp only [tableFind, h, if_false, keys, List.map_cons, List.mem_cons, ih, keys]
        constructor
        · rintro hn (rfl | hm)
          · exact h rfl
          · exact hn hm
        · intro hn
          exact fun hm => hn (Or.inr hm)

theorem tableFind_isSome_iff (key : K) (t : List (K × V)) :
    (tableFind key t).isSome = true ↔ key ∈ keys t := by
  rcases h : tableFind key t with _ | v
  · simpa using (tableFind_eq_none_iff key t).1 h
  · simp only [Option.isSome_some, true_iff]
    by_contra hk
    rw [(tableFind_eq_none_iff key t).2 hk] at h
    exact Option.noConfusion h

theorem tableInsert_of_none {key : K} {t : List (K × V)} (v : V)
    (h : tableFind key t = none) : tableInsert key v t = (key, v) :: t := by
  simp [tableInsert, h]

theorem keys_tableErase (key : K) (t : List (K × V)) :
    keys (tableErase key t) = removeKey key (keys t) := by
  induction t with
  | nil => simp [tableErase, keys, removeKey]
  | cons p t ih =>
      by_cases h : p.1 = key
      · simp [tableErase, h, keys, removeKey]
      · simpa [tableErase, h, keys, removeKey] using ih

theorem keys_tableUpdate (key : K) (v : V) (t : List (K × V)) :
    keys (tableUpdate key v t) = keys t := by
  induction t with
  | nil => simp [tableUpdate]
  | cons p t ih =>
      by_cases h : p.1 = key
      · simp [tableUpdate, h, keys]
      · simp [tableUpdate, h, keys] at ih ⊢
        exact ih

theorem length_tableUpdate (key : K) (v : V) (t : List (K × V)) :
    (tableUpdate key v t).length = t.length := by
  induction t with
  | nil => simp [tableUpdate]
  | cons p t ih =>
      by_cases h : p.1 = key
      · simp [tableUpdate, h]
      · simp [tableUpdate, h, ih]

theorem tableFind_tableUpdate_self {key : K} {t : List (K × V)} (v : V)
    (h : key ∈ keys t) : tableFind key (tableUpdate key v t) = some v := by
  induction t with
  | nil => simp [keys] at h
  | cons p t ih =>
      by_cases hp : p.1 = key
      · simp [tableUpdate, hp, tableFind]
      · have hk : key ∈ keys t := by
          simp only [keys, List.map_cons, List.mem_cons] at h
          rcases h with h | h
          · exact absurd h.symm hp
          · exact h
        simp [tableUpdate, hp, tableFind, ih hk]

theorem removeKey_sublist (key : K) (l : List K) :
    List.Sublist (removeKey key l) l := by
  induction l with
  | nil => simp [removeKey]
  | cons a t ih =>
      by_cases h : a = key
      · simp [removeKey, h]
      · simpa [removeKey, h] using List.Sublist.cons₂ a ih

theorem mem_removeKey_of_ne {a key : K} {l : List K}
    (hm : a ∈ l) (hne : a ≠ key) : a ∈ removeKey key l := by
  induction l with
  | nil => simp at hm
  | cons b t ih =>
      rcases List.mem_cons.1 hm with rfl | hm
      · simp [removeKey, hne]
      · by_cases h : b = key
        · simpa [removeKey, h] using hm
        · simpa [removeKey, h] using Or.inr (ih hm)

theorem not_mem_removeKey {key : K} {l : List K} (hn : l.Nodup) :
    key ∉ removeKey key l := by
  induction l with
  | nil => simp [removeKey]
  | cons b t ih =>
      rcases List.nodup_cons.1 hn with ⟨hb, ht⟩
      by_cases h : b = key
      · subst h
        simpa [removeKey] using hb
      · simp only [removeKey, h, if_false, List.mem_cons]
        rintro (rfl | hm)
        · exact h rfl
        · exact ih ht hm

theorem mem_cons_removeKey (a key : K) (l : List K) :
    a ∈ key :: removeKey key l ↔ a = key ∨ a ∈ l := by
  constructor
  · intro h
    rcases List.mem_cons.1 h with rfl | hm
    · exact Or.inl rfl
    · exact Or.inr ((removeKey_sublist key l).mem hm)
  · rintro (rfl | hm)
    · exact List.mem_cons_self _ _
    · by_cases hne : a = key
      · subst hne; exact List.mem_cons_self _ _
      · exact List.mem_cons.2 (Or.inr (mem_removeKey_of_ne hm hne))

theorem length_removeKey_of_mem {key : K} {l : List K} (h : key ∈ l) :
    (removeKey key l).length + 1 = l.length := by
  induction l with
  | nil => simp at h
  | cons b t ih =>
      by_cases hb : b = key
      · simp [removeKey, hb]
      · have ht : key ∈ t := by
          rcases List.mem_cons.1 h with rfl | hm
          · exact absurd rfl hb
          · exact hm
        simp [removeKey, hb, ← ih ht]

theorem mem_removeKey_iff {a key : K} {l : List K} (hn : l.Nodup) :
    a ∈ removeKey key l ↔ a ∈ l ∧ a ≠ key := by
  constructor
  · intro h
    refine ⟨(removeKey_sublist key l).mem h, ?_⟩
    rintro rfl
    exact not_mem_removeKey hn h
  · rintro ⟨hm, hne⟩
    exact mem_removeKey_of_ne hm hne

theorem tableFind_tableErase_self {key : K} {t : List (K × V)}
    (hn : (keys t).Nodup) : tableFind key (tableErase key t) = none := by
  rw [tableFind_eq_none_iff, keys_tableErase]
  exact not_mem_removeKey hn

omit [DecidableEq K] in
theorem getLast_not_mem_dropLast {l : List K} (hn : l.Nodup) (h : l ≠ []) :
    l.getLast h ∉ l.dropLast := by
  intro hm
  have hd := List.dropLast_append_getLast h
  rw [← hd] at hn
  rcases List.nodup_append.1 hn with ⟨-, -, hdis⟩
  exact hdis hm (List.mem_singleton_self _)

omit [DecidableEq K] in
theorem mem_dropLast_iff {a : K} {l : List K} (hn : l.Nodup) (h : l ≠ []) :
    a ∈ l.dropLast ↔ a ∈ l ∧ a ≠ l.getLast h := by
  constructor
  · intro hm
    refine ⟨(List.dropLast_sublist l).mem hm, ?_⟩
    rintro rfl
    exact getLast_not_mem_dropLast hn h hm
  · rintro ⟨hm, hne⟩
    have hd := List.dropLast_append_getLast h
    rw [← hd] at hm
    rcases List.mem_append.1 hm with hm | hm
    · exact hm
    · exact absurd (List.mem_singleton.1 hm) hne

theorem find_miss {c : Cache K V} {key : K} (h : tableFind key c.table = none) :
    c.find key =
      (none, { c with stats := { c.stats with found_hits := c.stats.found_hits + 1 } }) := by
  simp [Cache.find, h]

theorem find_hit {c : Cache K V} {key : K} {v : V} (h : tableFind key c.table = some v) :
    c.find key =
      (some v,
        { c with
          stats := { c.stats with
            found_hits := c.stats.found_hits + 1,
            found := c.stats.found + 1 },
          lru_list := key :: removeKey key c.lru_list }) := by
  simp [Cache.find, h]

theorem insert_hit {c : Cache K V} {key : K} (v : V) {w : V}
    (h : tableFind key c.table = some w) :
    c.insert key v =
      { c with
        lru_list := key :: removeKey key c.lru_list,
        table := tableUpdate key v c.table,
        stats := { c.stats with
          found_hits := c.stats.found_hits + 1,
          found := c.stats.found + 1 } } := by
  simp [Cache.insert, find_hit h]

theorem insert_miss_no_evict {c : Cache K V} {key : K} (v : V)
    (h : tableFind key c.table = none)
    (hlen : ¬ c.lru_list.length + 1 > c.maxsize) :
    c.insert key v =
      { c with
        lru_list := key :: c.lru_list,
        table := (key, v) :: c.table,
        stats := { c.stats with found_hits := c.stats.found_hits + 1 } } := by
  simp [Cache.insert, find_miss h, tableInsert, h, hlen]

theorem insert_miss_evict {c : Cache K V} {key : K} (v : V)
    (h : tableFind key c.table = none)
    (hlen : c.lru_list.length + 1 > c.maxsize) :
    c.insert key v =
      { c with
        lru_list := (key :: c.lru_list).dropLast,
        table := tableErase ((key :: c.lru_list).getLast (List.cons_ne_nil _ _))
                   ((key, v) :: c.table),
        stats := { c.stats with
          found_hits := c.stats.found_hits + 1,
          removed := c.stats.removed + 1 } } := by
  simp [Cache.insert, find_miss h, tableInsert, h, hlen]

omit [DecidableEq K] in
theorem wf_mkCache (size : Int) : WF (mkCache size : Cache K V) := by
  refine ⟨?_, ?_, ?_, ?_, ?_⟩ <;> simp [mkCache, keys]

theorem WF.table_length {c : Cache K V} (hwf : WF c) :
    c.table.length = c.lru_list.length := by
  have h1 : (keys c.table).toFinset = c.lru_list.toFinset := by
    apply Finset.ext
    intro a
    simp [List.mem_toFinset, hwf.mem_iff]
  calc c.table.length = (keys c.table).length := by simp [keys]
    _ = (keys c.table).toFinset.card := (List.toFinset_card_of_nodup hwf.nodup_keys).symm
    _ = c.lru_list.toFinset.card := by rw [h1]
    _ = c.lru_list.length := List.toFinset_card_of_nodup hwf.nodup_lru

theorem wf_find {c : Cache K V} (hwf : WF c) (key : K) : WF (c.find key).2 := by
  rcases h : tableFind key c.table with _ | v
  · rw [find_miss h]
    exact ⟨hwf.nodup_lru, hwf.nodup_keys, hwf.mem_iff, hwf.size_le,
      Nat.le_succ_of_le hwf.found_le⟩
  · rw [find_hit h]
    have hkmem : key ∈ keys c.table := by
      rw [← tableFind_isSome_iff, h]
      rfl
    have hklru : key ∈ c.lru_list := (hwf.mem_iff key).2 hkmem
    refine ⟨?_, hwf.nodup_keys, ?_, ?_, Nat.succ_le_succ hwf.found_le⟩
    · exact List.nodup_cons.2
        ⟨not_mem_removeKey hwf.nodup_lru,
         List.Nodup.sublist (removeKey_sublist key _) hwf.nodup_lru⟩
    · intro k
      rw [mem_cons_removeKey, ← hwf.mem_iff]
      constructor
      · rintro (rfl | hm)
        · exact hklru
        · exact hm
      · intro hm
        exact Or.inr hm
    · calc (key :: removeKey key c.lru_list).length
          = (removeKey key c.lru_list).length + 1 := by simp
        _ = c.lru_list.length := length_removeKey_of_mem hklru
        _ ≤ c.maxsize := hwf.size_le

theorem wf_insert {c : Cache K V} (hwf : WF c) (key : K) (v : V) :
    WF (c.insert key v) := by
  rcases h : tableFind key c.table with _ | w
  · have hkeys : key ∉ keys c.table := (tableFind_eq_none_iff key c.table).1 h
    have hklru : key ∉ c.lru_list := fun hm => hkeys ((hwf.mem_iff key).1 hm)
    have hnodup_l : (key :: c.lru_list).Nodup := List.nodup_cons.2 ⟨hklru, hwf.nodup_lru⟩
    have hnodup_k : (key :: keys c.table).Nodup := List.nodup_cons.2 ⟨hkeys, hwf.nodup_keys⟩
    have hmem_l : ∀ a : K, a ∈ key :: c.lru_list ↔ a ∈ key :: keys c.table := by
      intro a
      simp [hwf.mem_iff a]
    by_cases hlen : c.lru_list.length + 1 > c.maxsize
    · rw [insert_miss_evict v h hlen]
      have hne : (key :: c.lru_list) ≠ [] := List.cons_ne_nil _ _
      set e := (key :: c.lru_list).getLast hne with he
      have hkt : keys (tableErase e ((key, v) :: c.table))
          = removeKey e (key :: keys c.table) := by
        rw [keys_tableErase]
        simp [keys]
      refine ⟨?_, ?_, ?_, ?_, Nat.le_succ_of_le hwf.found_le⟩
      · exact List.Nodup.sublist (List.dropLast_sublist _) hnodup_l
      · rw [hkt]
        exact List.Nodup.sublist (removeKey_sublist _ _) hnodup_k
      · intro a
        rw [hkt, mem_dropLast_iff hnodup_l hne, mem_removeKey_iff hnodup_k, hmem_l a]
      · calc (key :: c.lru_list).dropLast.length
            = c.lru_list.length := by simp
          _ ≤ c.maxsize := hwf.size_le
    · rw [insert_miss_no_evict v h hlen]
      refine ⟨hnodup_l, ?_, ?_, ?_, Nat.le_succ_of_le hwf.found_le⟩
      · simpa [keys] using hnodup_k
      · intro a
        simpa [keys] using hmem_l a
      · simpa using Nat.not_lt.1 hlen
  · rw [insert_hit v h]
    have hkmem : key ∈ keys c.table := by
      rw [← tableFind_isSome_iff, h]
      rfl
    have hklru : key ∈ c.lru_list := (hwf.mem_iff key).2 hkmem
    refine ⟨?_, ?_, ?_, ?_, Nat.succ_le_succ hwf.found_le⟩
    · exact List.nodup_cons.2
        ⟨not_mem_removeKey hwf.nodup_lru,
         List.Nodup.sublist (removeKey_sublist key _) hwf.nodup_lru⟩
    · rw [keys_tableUpdate]
      exact hwf.nodup_keys
    · intro a
      rw [keys_tableUpdate, mem_cons_removeKey, ← hwf.mem_iff]
      constructor
      · rintro (rfl | hm)
        · exact hklru
        · exact hm
      · intro hm
        exact Or.inr hm
    · calc (key :: removeKey key c.lru_list).length
          = (removeKey key c.lru_list).length + 1 := by simp
        _ = c.lru_list.length := length_removeKey_of_mem hklru
        _ ≤ c.maxsize := hwf.size_le

theorem wf_step {c : Cache K V} (hwf : WF c) (op : Op K V) : WF (c.step op) := by
  cases op with
  | find k => exact wf_find hwf k
  | insert k v => exact wf_insert hwf k v

theorem wf_run {c : Cache K V} (hwf : WF c) (ops : List (Op K V)) : WF (c.run ops) := by
  induction ops generalizing c with
  | nil => exact hwf
  | cons op ops ih => exact ih (wf_step hwf op)

theorem wf_runInserts {c : Cache K V} (hwf : WF c) (ps : List (K × V)) :
    WF (c.runInserts ps) := by
  induction ps generalizing c with
  | nil => exact hwf
  | cons p ps ih => exact ih (wf_insert hwf p.1 p.2)

theorem find_snd_found_hits (c : Cache K V) (key : K) :
    ((c.find key).2).stats.found_hits = c.stats.found_hits + 1 := by
  rcases h : tableFind key c.table with _ | v
  · rw [find_miss h]
  · rw [find_hit h]

theorem find_snd_found (c : Cache K V) (key : K) :
    ((c.find key).2).stats.found
      = c.stats.found + (if (tableFind key c.table).isSome then 1 else 0) := by
  rcases h : tableFind key c.table with _ | v
  · rw [find_miss h]
    simp
  · rw [find_hit h]
    simp

theorem find_snd_removed (c : Cache K V) (key : K) :
    ((c.find key).2).stats.removed = c.stats.removed := by
  rcases h : tableFind key c.table with _ | v
  · rw [find_miss h]
  · rw [find_hit h]

theorem find_snd_miss_field (c : Cache K V) (key : K) :
    ((c.find key).2).stats.miss = c.stats.miss := by
  rcases h : tableFind key c.table with _ | v
  · rw [find_miss h]
  · rw [find_hit h]

theorem find_fst (c : Cache K V) (key : K) : (c.find key).1 = tableFind key c.table := by
  rcases h : tableFind key c.table with _ | v
  · rw [find_miss h]
  · rw [find_hit h]

theorem insert_found_hits (c : Cache K V) (key : K) (v : V) :
    (c.insert key v).stats.found_hits = c.stats.found_hits + 1 := by
  rcases h : tableFind key c.table with _ | w
  · by_cases hlen : c.lru_list.length + 1 > c.maxsize
    · rw [insert_miss_evict v h hlen]
    · rw [insert_miss_no_evict v h hlen]
  · rw [insert_hit v h]

theorem insert_found (c : Cache K V) (key : K) (v : V) :
    (c.insert key v).stats.found
      = c.stats.found + (if (tableFind key c.table).isSome then 1 else 0) := by
  rcases h : tableFind key c.table with _ | w
  · by_cases hlen : c.lru_list.length + 1 > c.maxsize
    · rw [insert_miss_evict v h hlen]
      simp
    · rw [insert_miss_no_evict v h hlen]
      simp
  · rw [insert_hit v h]
    simp

theorem insert_removed (c : Cache K V) (key : K) (v : V) :
    (c.insert key v).stats.removed
      = c.stats.removed + (if (c.insertEvicted key).isSome then 1 else 0) := by
  rcases h : tableFind key c.table with _ | w
  · by_cases hlen : c.lru_list.length + 1 > c.maxsize
    · rw [insert_miss_evict v h hlen]
      have he : c.insertEvicted key
          = some ((key :: c.lru_list).getLast (List.cons_ne_nil _ _)) := by
        simp only [Cache.insertEvicted, h]
        rw [if_pos]
        simpa using hlen
      rw [he]
      simp
    · rw [insert_miss_no_evict v h hlen]
      have he : c.insertEvicted key = none := by
        simp only [Cache.insertEvicted, h]
        rw [if_neg]
        simpa using hlen
      rw [he]
      simp
  · rw [insert_hit v h]
    simp [Cache.insertEvicted, h]

theorem insert_miss_field (c : Cache K V) (key : K) (v : V) :
    (c.insert key v).stats.miss = c.stats.miss := by
  rcases h : tableFind key c.table with _ | w
  · by_cases hlen : c.lru_list.length + 1 > c.maxsize
    · rw [insert_miss_evict v h hlen]
    · rw [insert_miss_no_evict v h hlen]
  · rw [insert_hit v h]

theorem run_found_hits (c : Cache K V) (ops : List (Op K V)) :
    (c.run ops).stats.found_hits = c.stats.found_hits + ops.length := by
  induction ops generalizing c with
  | nil => rfl
  | cons op ops ih =>
      have hstep : (c.step op).stats.found_hits = c.stats.found_hits + 1 := by
        cases op with
        | find k => exact find_snd_found_hits c k
        | insert k v => exact insert_found_hits c k v
      calc (c.run (op :: ops)).stats.found_hits
          = (c.step op).stats.found_hits + ops.length := ih (c.step op)
        _ = c.stats.found_hits + 1 + ops.length := by rw [hstep]
        _ = c.stats.found_hits + (op :: ops).length := by
              simp [List.length_cons]
              omega

theorem run_removed (c : Cache K V) (ops : List (Op K V)) :
    (c.run ops).stats.removed = c.stats.removed + c.evictCount ops := by
  induction ops generalizing c with
  | nil => rfl
  | cons op ops ih =>
      have hstep : (c.step op).stats.removed
          = c.stats.removed + (match op with
              | .find _ => 0
              | .insert k _ => if (c.insertEvicted k).isSome then 1 else 0) := by
        cases op with
        | find k => simpa using find_snd_removed c k
        | insert k v => exact insert_removed c k v
      calc (c.run (op :: ops)).stats.removed
          = (c.step op).stats.removed + (c.step op).evictCount ops := ih (c.step op)
        _ = c.stats.removed + c.evictCount (op :: ops) := by
              rw [hstep]
              simp only [Cache.evictCount]
              omega

theorem run_miss_field (c : Cache K V) (ops : List (Op K V)) :
    (c.run ops).stats.miss = c.stats.miss := by
  induction ops generalizing c with
  | nil => rfl
  | cons op ops ih =>
      have hstep : (c.step op).stats.miss = c.stats.miss := by
        cases op with
        | find k => exact find_snd_miss_field c k
        | insert k v => exact insert_miss_field c k v
      rw [Cache.run, ih (c.step op), hstep]

theorem runFinds_found_hits (c : Cache K V) (ks : List K) :
    (c.runFinds ks).stats.found_hits = c.stats.found_hits + ks.length := by
  induction ks generalizing c with
  | nil => rfl
  | cons k ks ih =>
      calc (c.runFinds (k :: ks)).stats.found_hits
          = ((c.find k).2).stats.found_hits + ks.length := ih ((c.find k).2)
        _ = c.stats.found_hits + (k :: ks).length := by
              rw [find_snd_found_hits]
              simp [List.length_cons]
              omega

theorem runFinds_found (c : Cache K V) (ks : List K) :
    (c.runFinds ks).stats.found = c.stats.found + c.findHits ks := by
  induction ks generalizing c with
  | nil => rfl
  | cons k ks ih =>
      calc (c.runFinds (k :: ks)).stats.found
          = ((c.find k).2).stats.found + ((c.find k).2).findHits ks := ih ((c.find k).2)
        _ = c.stats.found + c.findHits (k :: ks) := by
              rw [find_snd_found]
              simp only [Cache.findHits]
              omega

theorem updLast_self (f : K → Nat) (key : K) (t : Nat) : updLast f key t key = t := by
  simp [updLast]

theorem updLast_ne {a key : K} (f : K → Nat) (t : Nat) (h : a ≠ key) :
    updLast f key t a = f a := by
  simp [updLast, h]

theorem pairwise_cons_updLast {s : IState K V} (hR : RInv s) (key : K)
    {tail : List K} (hsub : List.Sublist tail s.cache.lru_list) (hknot : key ∉ tail) :
    (key :: tail).Pairwise
      (fun a b => updLast s.last key (s.time + 1) b < updLast s.last key (s.time + 1) a) := by
  rw [List.pairwise_cons]
  constructor
  · intro b hb
    have hbne : b ≠ key := fun hb' => hknot (hb' ▸ hb)
    rw [updLast_self, updLast_ne _ _ hbne]
    exact Nat.lt_succ_of_le (hR.le_time b (hsub.mem hb))
  · have hp : tail.Pairwise (fun a b => s.last b < s.last a) :=
      List.Pairwise.sublist hsub hR.sorted
    refine hp.imp_of_mem ?_
    intro a b ha hb hab
    have hane : a ≠ key := fun ha' => hknot (ha' ▸ ha)
    have hbne : b ≠ key := fun hb' => hknot (hb' ▸ hb)
    rw [updLast_ne _ _ hane, updLast_ne _ _ hbne]
    exact hab

theorem RInv_mk {s : IState K V} (hR : RInv s) (key : K) (c' : Cache K V)
    {tail : List K} (hsub : List.Sublist tail s.cache.lru_list) (hknot : key ∉ tail)
    (hwf : WF c') (hlru : List.Sublist c'.lru_list (key :: tail)) :
    RInv ⟨c', s.time + 1, updLast s.last key (s.time + 1)⟩ := by
  constructor
  · exact hwf
  · exact List.Pairwise.sublist hlru (pairwise_cons_updLast hR key hsub hknot)
  · intro a ha
    change a ∈ c'.lru_list at ha
    change updLast s.last key (s.time + 1) a ≤ s.time + 1
    have ha' := hlru.mem ha
    rcases List.mem_cons.1 ha' with rfl | ha'
    · simp [updLast]
    · by_cases hak : a = key
      · subst hak
        simp [updLast]
      · rw [updLast_ne _ _ hak]
        exact Nat.le_succ_of_le (hR.le_time a (hsub.mem ha'))

theorem istep_RInv {s : IState K V} (hR : RInv s) (op : Op K V) : RInv (istep s op) := by
  cases op with
  | find k =>
      rcases h : tableFind k s.cache.table with _ | v
      · have hstep : istep s (Op.find k) = ⟨(s.cache.find k).2, s.time + 1, s.last⟩ := by
          simp [istep, h]
        rw [hstep]
        have hlru : (s.cache.find k).2.lru_list = s.cache.lru_list := by
          rw [find_miss h]
        refine ⟨wf_find hR.wf k, ?_, ?_⟩
        · rw [hlru]
          exact hR.sorted
        · intro a ha
          rw [hlru] at ha
          exact Nat.le_succ_of_le (hR.le_time a ha)
      · have hstep : istep s (Op.find k)
            = ⟨(s.cache.find k).2, s.time + 1, updLast s.last k (s.time + 1)⟩ := by
          simp [istep, h]
        rw [hstep]
        refine RInv_mk hR k _ (removeKey_sublist k _) (not_mem_removeKey hR.wf.nodup_lru)
          (wf_find hR.wf k) ?_
        rw [find_hit h]
  | insert k v =>
      have hstep : istep s (Op.insert k v)
          = ⟨s.cache.insert k v, s.time + 1, updLast s.last k (s.time + 1)⟩ := rfl
      rw [hstep]
      rcases h : tableFind k s.cache.table with _ | w
      · have hkeys : k ∉ keys s.cache.table := (tableFind_eq_none_iff k _).1 h
        have hklru : k ∉ s.cache.lru_list := fun hm => hkeys ((hR.wf.mem_iff k).1 hm)
        by_cases hlen : s.cache.lru_list.length + 1 > s.cache.maxsize
        · refine RInv_mk hR k _ (List.Sublist.refl _) hklru (wf_insert hR.wf k v) ?_
          rw [insert_miss_evict v h hlen]
          exact List.dropLast_sublist _
        · refine RInv_mk hR k _ (List.Sublist.refl _) hklru (wf_insert hR.wf k v) ?_
          rw [insert_miss_no_evict v h hlen]
      · refine RInv_mk hR k _ (removeKey_sublist k _) (not_mem_removeKey hR.wf.nodup_lru)
          (wf_insert hR.wf k v) ?_
        rw [insert_hit v h]

theorem irun_RInv {s : IState K V} (hR : RInv s) (ops : List (Op K V)) :
    RInv (irun s ops) := by
  induction ops generalizing s with
  | nil => exact hR
  | cons op ops ih => exact ih (istep_RInv hR op)

omit [DecidableEq K] in
theorem iinit_RInv (size : Int) : RInv (iinit size : IState K V) := by
  refine ⟨wf_mkCache size, ?_, ?_⟩
  · simp [iinit, mkCache]
  · intro a ha
    simp [iinit, mkCache] at ha

theorem evicted_key_lru_of_RInv {s : IState K V} (hR : RInv s) (k : K) (v : V) (e : K)
    (h : s.cache.insertEvicted k = some e) :
    tableFind e ((istep s (Op.insert k v)).cache.table) = none ∧
    e ∉ (istep s (Op.insert k v)).cache.lru_list ∧
    ∀ k' ∈ (istep s (Op.insert k v)).cache.lru_list,
      (istep s (Op.insert k v)).last e < (istep s (Op.insert k v)).last k' := by
  have hmiss : tableFind k s.cache.table = none := by
    rcases hh : tableFind k s.cache.table with _ | w
    · rfl
    · simp [Cache.insertEvicted, hh] at h
  have hlen' : (k :: s.cache.lru_list).length > s.cache.maxsize := by
    by_contra hl
    simp only [Cache.insertEvicted, hmiss] at h
    rw [if_neg hl] at h
    exact Option.noConfusion h
  have he : (k :: s.cache.lru_list).getLast (List.cons_ne_nil _ _) = e := by
    simp only [Cache.insertEvicted, hmiss] at h
    rw [if_pos hlen'] at h
    exact Option.some.inj h
  have hlen : s.cache.lru_list.length + 1 > s.cache.maxsize := by simpa using hlen'
  have hkeys : k ∉ keys s.cache.table := (tableFind_eq_none_iff k _).1 hmiss
  have hklru : k ∉ s.cache.lru_list := fun hm => hkeys ((hR.wf.mem_iff k).1 hm)
  have hlnodup : (k :: s.cache.lru_list).Nodup := List.nodup_cons.2 ⟨hklru, hR.wf.nodup_lru⟩
  have hknodup : (k :: keys s.cache.table).Nodup :=
    List.nodup_cons.2 ⟨hkeys, hR.wf.nodup_keys⟩
  have hcache : (istep s (Op.insert k v)).cache = s.cache.insert k v := rfl
  have hins := insert_miss_evict v hmiss hlen
  have htab : (istep s (Op.insert k v)).cache.table
      = tableErase e ((k, v) :: s.cache.table) := by
    rw [hcache, hins, he]
  have hlru : (istep s (Op.insert k v)).cache.lru_list
      = (k :: s.cache.lru_list).dropLast := by
    rw [hcache, hins]
  have hlast : (istep s (Op.insert k v)).last = updLast s.last k (s.time + 1) := rfl
  refine ⟨?_, ?_, ?_⟩
  · rw [htab]
    apply tableFind_tableErase_self
    simpa [keys] using hknodup
  · rw [hlru, ← he]
    exact getLast_not_mem_dropLast hlnodup _
  · intro k' hk'
    rw [hlru] at hk'
    have hp := pairwise_cons_updLast hR k (List.Sublist.refl _) hklru
    have hdecomp := List.dropLast_append_getLast
      (show (k :: s.cache.lru_list) ≠ [] from List.cons_ne_nil _ _)
    rw [← hdecomp] at hp
    rcases List.pairwise_append.1 hp with ⟨-, -, hcross⟩
    have hx := hcross k' hk' ((k :: s.cache.lru_list).getLast (List.cons_ne_nil _ _))
      (List.mem_singleton_self _)
    rw [he] at hx
    rw [hlast]
    exact hx

/-- Claim C2: for every sequence of find and insert operations on a cache
constructed with capacity at least 1, whenever an insert of an absent key
overflows the capacity, the evicted key (observed by `insertEvicted`) is
removed from both the table and the recency list, and its last-touch time
(maintained by the ghost clock of `istep`) is strictly below that of every
key resident after the insert completes: the evicted key is the least
recently touched resident key, and no more-recently-touched key is ever
evicted. -/
theorem evicted_key_is_least_recently_touched (size : Int) (hsize : 1 ≤ size)
    (ops : List (Op K V)) (k : K) (v : V) (e : K)
    (h : (irun (iinit size : IState K V) ops).cache.insertEvicted k = some e) :
    tableFind e ((istep (irun (iinit size : IState K V) ops) (Op.insert k v)).cache.table)
        = none ∧
    e ∉ (istep (irun (iinit size : IState K V) ops) (Op.insert k v)).cache.lru_list ∧
    ∀ k' ∈ (istep (irun (iinit size : IState K V) ops) (Op.insert k v)).cache.lru_list,
      (istep (irun (iinit size : IState K V) ops) (Op.insert k v)).last e
        < (istep (irun (iinit size : IState K V) ops) (Op.insert k v)).last k' := by
  have hconst : 1 ≤ size := hsize
  exact evicted_key_lru_of_RInv (irun_RInv (iinit_RInv size) ops) k v e h

/-- Witness for C2 at a concrete run: capacity 2, inserts of keys 1 then 2,
then an insert of key 3 evicts key 1. -/
theorem evicted_key_is_least_recently_touched_witness :
    (1 : Int) ≤ 2 ∧
    (irun (iinit 2 : IState Nat Nat) [Op.insert 1 10, Op.insert 2 20]).cache.insertEvicted 3
        = some 1 ∧
    (tableFind 1 ((istep (irun (iinit 2 : IState Nat Nat) [Op.insert 1 10, Op.insert 2 20])
        (Op.insert 3 30)).cache.table) = none ∧
     1 ∉ (istep (irun (iinit 2 : IState Nat Nat) [Op.insert 1 10, Op.insert 2 20])
        (Op.insert 3 30)).cache.lru_list ∧
     ∀ k' ∈ (istep (irun (iinit 2 : IState Nat Nat) [Op.insert 1 10, Op.insert 2 20])
        (Op.insert 3 30)).cache.lru_list,
      (istep (irun (iinit 2 : IState Nat Nat) [Op.insert 1 10, Op.insert 2 20])
          (Op.insert 3 30)).last 1
        < (istep (irun (iinit 2 : IState Nat Nat) [Op.insert 1 10, Op.insert 2 20])
            (Op.insert 3 30)).last k') :=
  ⟨by decide, by decide,
   evicted_key_is_least_recently_touched 2 (by decide) [Op.insert 1 10, Op.insert 2 20]
     3 30 1 (by decide)⟩

/-- Claim C1: for every cache constructed with capacity at least 1 and
every sequence of insert calls, after the calls complete the number of
resident entries is at most the capacity, and the table and the recency
list have equal size.  The insert sequence is universally quantified, so
the bound holds after every prefix, i.e. after each insert call. -/
theorem insert_sequence_capacity_bound (size : Int) (hsize : 1 ≤ size)
    (ps : List (K × V)) :
    ((mkCache size : Cache K V).runInserts ps).size
        ≤ ((mkCache size : Cache K V).runInserts ps).maxsize ∧
    ((mkCache size : Cache K V).runInserts ps).table.length
        = ((mkCache size : Cache K V).runInserts ps).lru_list.length := by
  have hconst : 1 ≤ size := hsize
  have hwf := wf_runInserts (wf_mkCache size) ps
  refine ⟨?_, hwf.table_length⟩
  rw [Cache.size, hwf.table_length]
  exact hwf.size_le

/-- Witness for C1: capacity 1, two inserts. -/
theorem insert_sequence_capacity_bound_witness :
    (1 : Int) ≤ 1 ∧
    ((mkCache 1 : Cache Nat Nat).runInserts [(0, 0), (1, 1)]).size
        ≤ ((mkCache 1 : Cache Nat Nat).runInserts [(0, 0), (1, 1)]).maxsize ∧
    ((mkCache 1 : Cache Nat Nat).runInserts [(0, 0), (1, 1)]).table.length
        = ((mkCache 1 : Cache Nat Nat).runInserts [(0, 0), (1, 1)]).lru_list.length :=
  ⟨by decide,
   (insert_sequence_capacity_bound 1 (by decide) [(0, 0), (1, 1)]).1,
   (insert_sequence_capacity_bound 1 (by decide) [(0, 0), (1, 1)]).2⟩

/-- Counterexample to claim C3: construction with non-positive capacity
is NOT rejected.  The constructor (modelled by the total function
`mkCache`) accepts 0 and -3, does not clamp them (-3 is converted
modulo 2^32 to 4294967293), and the resulting objects serve operations
normally, so a non-positive capacity is silently accepted at
construction time rather than rejected eagerly. -/
theorem construction_not_rejected_counterexample :
    (mkCache 0 : Cache Nat Nat).maxsize = 0 ∧
    (mkCache (-3) : Cache Nat Nat).maxsize = 4294967293 ∧
    ((mkCache 0 : Cache Nat Nat).insert 1 1).stats.found_hits = 1 ∧
    ((mkCache (-3) : Cache Nat Nat).insert 1 1).table = [(1, 1)] := by
  refine ⟨by decide, by decide, by decide, by decide⟩

/-- Claim C3 as amended: construction with non-positive capacity is not
rejected and not clamped: the constructor performs no validation at all.
The int argument is converted to unsigned modulo 2^32 (0 stays 0, a
negative capacity becomes a huge one), the cache starts empty with
zeroed counters, and subsequent operations proceed normally. -/
theorem construction_silently_accepts_nonpositive (size : Int) (hnp : size ≤ 0) :
    (mkCache size : Cache K V).maxsize = (size % 2 ^ 32).toNat ∧
    (mkCache size : Cache K V).table = [] ∧
    (mkCache size : Cache K V).lru_list = [] ∧
    (mkCache size : Cache K V).stats = ⟨0, 0, 0, 0⟩ ∧
    ∀ (k : K) (v : V), ((mkCache size : Cache K V).insert k v).stats.found_hits = 1 := by
  have hconst : size ≤ 0 := hnp
  refine ⟨rfl, rfl, rfl, rfl, fun k v => ?_⟩
  rw [insert_found_hits]
  rfl

/-- Witness for the amended C3 at capacity -7. -/
theorem construction_silently_accepts_nonpositive_witness :
    (-7 : Int) ≤ 0 ∧
    ((mkCache (-7) : Cache Nat Nat).maxsize = ((-7 : Int) % 2 ^ 32).toNat ∧
     (mkCache (-7) : Cache Nat Nat).table = [] ∧
     (mkCache (-7) : Cache Nat Nat).lru_list = [] ∧
     (mkCache (-7) : Cache Nat Nat).stats = ⟨0, 0, 0, 0⟩ ∧
     ∀ (k : Nat) (v : Nat), ((mkCache (-7) : Cache Nat Nat).insert k v).stats.found_hits = 1) :=
  ⟨by decide, construction_silently_accepts_nonpositive (-7) (by decide)⟩

/-- Claim C4: on any well-formed cache of capacity at least 1,
insert(k, v1) followed by insert(k, v2) leaves find(k) returning v2,
leaves the resident-entry count unchanged by the second insert, triggers
no eviction in the second insert (removed is unchanged), and the
overwriting insert promotes k to most-recently-used (front of the
recency list). -/
theorem insert_update_in_place {c : Cache K V} (hwf : WF c) (hcap : 1 ≤ c.maxsize)
    (k : K) (v1 v2 : V) :
    ((((c.insert k v1).insert k v2).find k).1 = some v2) ∧
    ((c.insert k v1).insert k v2).size = (c.insert k v1).size ∧
    ((c.insert k v1).insert k v2).stats.removed = (c.insert k v1).stats.removed ∧
    ((c.insert k v1).insert k v2).lru_list.head? = some k := by
  have hk1 : k ∈ keys (c.insert k v1).table := by
    rcases h : tableFind k c.table with _ | w
    · have hkeys : k ∉ keys c.table := (tableFind_eq_none_iff k _).1 h
      have hklru : k ∉ c.lru_list := fun hm => hkeys ((hwf.mem_iff k).1 hm)
      by_cases hlen : c.lru_list.length + 1 > c.maxsize
      · rcases hcl : c.lru_list with _ | ⟨a, t⟩
        · exfalso
          rw [hcl] at hlen
          simp at hlen
          omega
        · rw [insert_miss_evict v1 h hlen]
          have hne : (a :: t) ≠ [] := List.cons_ne_nil _ _
          have hgl : (k :: c.lru_list).getLast (List.cons_ne_nil _ _)
              = c.lru_list.getLast (by rw [hcl]; exact hne) := by
            rw [List.getLast_cons]
          have hglmem : (k :: c.lru_list).getLast (List.cons_ne_nil _ _) ∈ c.lru_list := by
            rw [hgl]
            exact List.getLast_mem _
          have hgne : k ≠ (k :: c.lru_list).getLast (List.cons_ne_nil _ _) := by
            intro hEq
            exact hklru (hEq ▸ hglmem)
          rw [keys_tableErase]
          apply mem_removeKey_of_ne _ (fun hEq => hgne hEq)
          simp [keys]
      · rw [insert_miss_no_evict v1 h hlen]
        simp [keys]
    · rw [insert_hit v1 h, keys_tableUpdate]
      rw [← tableFind_isSome_iff, h]
      rfl
  have hwf1 : WF (c.insert k v1) := wf_insert hwf k v1
  have hk1lru : k ∈ (c.insert k v1).lru_list := (hwf1.mem_iff k).2 hk1
  obtain ⟨w, hw⟩ : ∃ w, tableFind k (c.insert k v1).table = some w := by
    rcases hfw : tableFind k (c.insert k v1).table with _ | w
    · exact absurd hk1 (by rwa [← tableFind_eq_none_iff])
    · exact ⟨w, rfl⟩
  rw [insert_hit v2 hw]
  refine ⟨?_, ?_, rfl, rfl⟩
  · rw [find_fst]
    exact tableFind_tableUpdate_self v2 hk1
  · rw [Cache.size, Cache.size]
    exact length_tableUpdate k v2 _

/-- Witness for C4: capacity-1 fresh cache, key 5 inserted with value 7
then overwritten with 9. -/
theorem insert_update_in_place_witness :
    WF (mkCache 1 : Cache Nat Nat) ∧ 1 ≤ (mkCache 1 : Cache Nat Nat).maxsize ∧
    (((((mkCache 1 : Cache Nat Nat).insert 5 7).insert 5 9).find 5).1 = some 9 ∧
     (((mkCache 1 : Cache Nat Nat).insert 5 7).insert 5 9).size
        = ((mkCache 1 : Cache Nat Nat).insert 5 7).size ∧
     (((mkCache 1 : Cache Nat Nat).insert 5 7).insert 5 9).stats.removed
        = ((mkCache 1 : Cache Nat Nat).insert 5 7).stats.removed ∧
     (((mkCache 1 : Cache Nat Nat).insert 5 7).insert 5 9).lru_list.head? = some 5) :=
  ⟨wf_mkCache 1, by decide, insert_update_in_place (wf_mkCache 1) (by decide) 5 7 9⟩

/-- Claim C5: find on an absent key returns the null ("not found")
result and leaves the table, the recency list, the capacity and all
counters other than the lookup-attempts counter unchanged; the attempts
counter is incremented by exactly one. -/
theorem find_miss_has_no_side_effect {c : Cache K V} {k : K}
    (h : tableFind k c.table = none) :
    (c.find k).1 = none ∧
    ((c.find k).2).table = c.table ∧
    ((c.find k).2).lru_list = c.lru_list ∧
    ((c.find k).2).maxsize = c.maxsize ∧
    ((c.find k).2).stats.found = c.stats.found ∧
    ((c.find k).2).stats.removed = c.stats.removed ∧
    ((c.find k).2).stats.miss = c.stats.miss ∧
    ((c.find k).2).stats.found_hits = c.stats.found_hits + 1 := by
  refine ⟨?_, ?_, ?_, ?_, ?_, ?_, ?_, ?_⟩ <;> rw [find_miss h]

/-- Witness for C5: lookup of key 42 in a fresh cache holding key 1. -/
theorem find_miss_has_no_side_effect_witness :
    tableFind 42 ((mkCache 2 : Cache Nat Nat).insert 1 1).table = none ∧
    ((((mkCache 2 : Cache Nat Nat).insert 1 1).find 42).1 = none ∧
     ((((mkCache 2 : Cache Nat Nat).insert 1 1).find 42).2).table
        = ((mkCache 2 : Cache Nat Nat).insert 1 1).table ∧
     ((((mkCache 2 : Cache Nat Nat).insert 1 1).find 42).2).lru_list
        = ((mkCache 2 : Cache Nat Nat).insert 1 1).lru_list ∧
     ((((mkCache 2 : Cache Nat Nat).insert 1 1).find 42).2).maxsize
        = ((mkCache 2 : Cache Nat Nat).insert 1 1).maxsize ∧
     ((((mkCache 2 : Cache Nat Nat).insert 1 1).find 42).2).stats.found
        = ((mkCache 2 : Cache Nat Nat).insert 1 1).stats.found ∧
     ((((mkCache 2 : Cache Nat Nat).insert 1 1).find 42).2).stats.removed
        = ((mkCache 2 : Cache Nat Nat).insert 1 1).stats.removed ∧
     ((((mkCache 2 : Cache Nat Nat).insert 1 1).find 42).2).stats.miss
        = ((mkCache 2 : Cache Nat Nat).insert 1 1).stats.miss ∧
     ((((mkCache 2 : Cache Nat Nat).insert 1 1).find 42).2).stats.found_hits
        = ((mkCache 2 : Cache Nat Nat).insert 1 1).stats.found_hits + 1) :=
  ⟨by decide, find_miss_has_no_side_effect (by decide)⟩

/-- Claim C6: from a fresh cache, a sequence of N find calls of which H
hit leaves the attempts counter at N, the found counter at H and the
reported missed value at N - H; over any operation sequence the removed
counter equals the number of overflow-triggering inserts, and a single
insert increments removed by at most one (and never decrements it). -/
theorem statistics_accounting (size : Int) (ks : List K) (ops : List (Op K V))
    (c : Cache K V) (k : K) (v : V) :
    ((mkCache size : Cache K V).runFinds ks).stats.found_hits = ks.length ∧
    ((mkCache size : Cache K V).runFinds ks).stats.found
        = (mkCache size : Cache K V).findHits ks ∧
    ((mkCache size : Cache K V).runFinds ks).stats.found_hits
          - ((mkCache size : Cache K V).runFinds ks).stats.found
        = ks.length - (mkCache size : Cache K V).findHits ks ∧
    ((mkCache size : Cache K V).run ops).stats.removed
        = (mkCache size : Cache K V).evictCount ops ∧
    c.stats.removed ≤ (c.insert k v).stats.removed ∧
    (c.insert k v).stats.removed ≤ c.stats.removed + 1 := by
  have h1 : ((mkCache size : Cache K V).runFinds ks).stats.found_hits = ks.length := by
    rw [runFinds_found_hits]
    simp [mkCache]
  have h2 : ((mkCache size : Cache K V).runFinds ks).stats.found
      = (mkCache size : Cache K V).findHits ks := by
    rw [runFinds_found]
    simp [mkCache]
  have h4 : ((mkCache size : Cache K V).run ops).stats.removed
      = (mkCache size : Cache K V).evictCount ops := by
    rw [run_removed]
    simp [mkCache]
  have h5 := insert_removed c k v
  refine ⟨h1, h2, by rw [h1, h2], h4, ?_, ?_⟩
  · rw [h5]
    exact Nat.le_add_right _ _
  · rw [h5]
    by_cases hx : (c.insertEvicted k).isSome <;> simp [hx]

/-- Claim C7: the statistics operation is modelled as a pure function of
the state (the member is const and only writes to the stream), and on
every reachable cache it yields exactly four label-value lines in the
fixed order attempts, found, removed, missed, where the missed value is
computed as attempts - found; the tracked miss field stays 0 forever and
is not what is reported. -/
theorem statistics_output (size : Int) (ops : List (Op K V)) :
    ((mkCache size : Cache K V).run ops).statistics
        = [ ("cache found hits:", ((mkCache size : Cache K V).run ops).stats.found_hits),
            ("cache found     :", ((mkCache size : Cache K V).run ops).stats.found),
            ("cache removed   :", ((mkCache size : Cache K V).run ops).stats.removed),
            ("cache missed    :", ((mkCache size : Cache K V).run ops).stats.found_hits
                - ((mkCache size : Cache K V).run ops).stats.found) ] ∧
    ((mkCache size : Cache K V).run ops).statistics.length = 4 ∧
    ((mkCache size : Cache K V).run ops).stats.miss = 0 := by
  refine ⟨rfl, rfl, ?_⟩
  rw [run_miss_field]
  rfl

/-- Claim C8: the concrete capacity-4 scenario of the test program:
after inserting pi, e, gold and sq2 the cache holds 4 entries with no
eviction; inserting zero evicts exactly pi (size stays 4); find(e)
succeeds with 2.17 and promotes e to the front; inserting one then
evicts exactly gold, leaving the residents one, e, zero, sq2. -/
theorem concrete_scenario_capacity_four :
    ((((((mkCache 4 : Cache String ℚ).insert ("pi") 3.14).insert ("e") 2.17).insert
        ("gold") 1.61).insert ("sq2") 1.14).size = 4) ∧
    ((((((mkCache 4 : Cache String ℚ).insert ("pi") 3.14).insert ("e") 2.17).insert
        ("gold") 1.61).insert ("sq2") 1.14).stats.removed = 0) ∧
    (((((((mkCache 4 : Cache String ℚ).insert ("pi") 3.14).insert ("e") 2.17).insert
        ("gold") 1.61).insert ("sq2") 1.14).insert ("zero") 0).size = 4) ∧
    (((((((mkCache 4 : Cache String ℚ).insert ("pi") 3.14).insert ("e") 2.17).insert
        ("gold") 1.61).insert ("sq2") 1.14).insert ("zero") 0).stats.removed = 1) ∧
    (((((((mkCache 4 : Cache String ℚ).insert ("pi") 3.14).insert ("e") 2.17).insert
        ("gold") 1.61).insert ("sq2") 1.14).insert ("zero") 0).lru_list
        = [("zero"), ("sq2"), ("gold"), ("e")]) ∧
    (tableFind ("pi") ((((((mkCache 4 : Cache String ℚ).insert ("pi") 3.14).insert
        ("e") 2.17).insert ("gold") 1.61).insert ("sq2") 1.14).insert ("zero") 0).table
        = none) ∧
    ((((((((mkCache 4 : Cache String ℚ).insert ("pi") 3.14).insert ("e") 2.17).insert
        ("gold") 1.61).insert ("sq2") 1.14).insert ("zero") 0).find ("e")).1 = some 2.17) ∧
    ((((((((mkCache 4 : Cache String ℚ).insert ("pi") 3.14).insert ("e") 2.17).insert
        ("gold") 1.61).insert ("sq2") 1.14).insert ("zero") 0).find ("e")).2.lru_list
        = [("e"), ("zero"), ("sq2"), ("gold")]) ∧
    (((((((((mkCache 4 : Cache String ℚ).insert ("pi") 3.14).insert ("e") 2.17).insert
        ("gold") 1.61).insert ("sq2") 1.14).insert ("zero") 0).find ("e")).2.insert
        ("one") 1).size = 4) ∧
    (((((((((mkCache 4 : Cache String ℚ).insert ("pi") 3.14).insert ("e") 2.17).insert
        ("gold") 1.61).insert ("sq2") 1.14).insert ("zero") 0).find ("e")).2.insert
        ("one") 1).stats.removed = 2) ∧
    (((((((((mkCache 4 : Cache String ℚ).insert ("pi") 3.14).insert ("e") 2.17).insert
        ("gold") 1.61).insert ("sq2") 1.14).insert ("zero") 0).find ("e")).2.insert
        ("one") 1).lru_list = [("one"), ("e"), ("zero"), ("sq2")]) ∧
    (tableFind ("gold") ((((((((mkCache 4 : Cache String ℚ).insert ("pi") 3.14).insert
        ("e") 2.17).insert ("gold") 1.61).insert ("sq2") 1.14).insert ("zero") 0).find
        ("e")).2.insert ("one") 1).table = none) :=
  ⟨rfl, rfl, rfl, rfl, rfl, rfl, rfl, rfl, rfl, rfl, rfl, rfl⟩

/-- Claim C9: every insert increments the lookup-attempts counter by
exactly one (its lookup goes through the public find), an insert of a
resident key additionally increments the found counter by exactly one
(and of an absent key leaves it unchanged), and from a fresh cache the
attempts counter counts every operation, insert calls as well as
caller-issued find calls. -/
theorem insert_counts_as_lookup (c : Cache K V) (k : K) (v : V)
    (size : Int) (ops : List (Op K V)) :
    (c.insert k v).stats.found_hits = c.stats.found_hits + 1 ∧
    (c.insert k v).stats.found
        = c.stats.found + (if (tableFind k c.table).isSome then 1 else 0) ∧
    ((mkCache size : Cache K V).run ops).stats.found_hits = ops.length := by
  refine ⟨insert_found_hits c k v, insert_found c k v, ?_⟩
  rw [run_found_hits]
  simp [mkCache]

theorem insert_empty_zero {c : Cache K V} (hm : c.maxsize = 0) (hl : c.lru_list = [])
    (ht : c.table = []) (k : K) (v : V) :
    c.insertEvicted k = some k ∧
    (c.insert k v).maxsize = 0 ∧
    (c.insert k v).lru_list = [] ∧
    (c.insert k v).table = [] ∧
    (c.insert k v).stats.removed = c.stats.removed + 1 := by
  have hfind : tableFind k c.table = none := by
    rw [ht]
    rfl
  have hlen : c.lru_list.length + 1 > c.maxsize := by
    rw [hl, hm]
    simp
  have hins := insert_miss_evict v hfind hlen
  refine ⟨?_, ?_, ?_, ?_, ?_⟩
  · simp [Cache.insertEvicted, hfind, hl, hm, List.getLast_singleton]
  · rw [hins]
    exact hm
  · rw [hins]
    simp [hl]
  · rw [hins, ht]
    simp only [hl]
    simp [tableErase, List.getLast_singleton]
  · rw [hins]

theorem runInserts_capacity_zero (ps : List (K × V)) (c : Cache K V)
    (hm : c.maxsize = 0) (hl : c.lru_list = []) (ht : c.table = []) :
    (c.runInserts ps).maxsize = 0 ∧
    (c.runInserts ps).lru_list = [] ∧
    (c.runInserts ps).table = [] ∧
    (c.runInserts ps).stats.removed = c.stats.removed + ps.length := by
  induction ps generalizing c with
  | nil => exact ⟨hm, hl, ht, rfl⟩
  | cons p ps ih =>
      obtain ⟨-, h1, h2, h3, h4⟩ := insert_empty_zero hm hl ht p.1 p.2
      obtain ⟨ih1, ih2, ih3, ih4⟩ := ih (c.insert p.1 p.2) h1 h2 h3
      refine ⟨ih1, ih2, ih3, ?_⟩
      show ((c.insert p.1 p.2).runInserts ps).stats.removed = _
      rw [ih4, h4]
      simp [List.length_cons]
      omega

/-- Claim C10: a cache constructed with capacity 0 stays empty: after
any sequence of inserts from a fresh capacity-0 cache the table and the
recency list are empty and the removed counter counts one eviction per
insert; moreover the next insert of any (necessarily absent) key evicts
exactly the key just inserted and again increments removed by one. -/
theorem capacity_zero_self_eviction (ps : List (K × V)) :
    ((mkCache 0 : Cache K V).runInserts ps).lru_list = [] ∧
    ((mkCache 0 : Cache K V).runInserts ps).table = [] ∧
    ((mkCache 0 : Cache K V).runInserts ps).stats.removed = ps.length ∧
    ∀ (k : K) (v : V),
      ((mkCache 0 : Cache K V).runInserts ps).insertEvicted k = some k ∧
      (((mkCache 0 : Cache K V).runInserts ps).insert k v).lru_list = [] ∧
      (((mkCache 0 : Cache K V).runInserts ps).insert k v).table = [] ∧
      (((mkCache 0 : Cache K V).runInserts ps).insert k v).stats.removed
          = ((mkCache 0 : Cache K V).runInserts ps).stats.removed + 1 := by
  have hm0 : (mkCache 0 : Cache K V).maxsize = 0 := by
    show toUnsigned 0 = 0
    decide
  obtain ⟨hm, hl, ht, hr⟩ := runInserts_capacity_zero ps (mkCache 0 : Cache K V)
    hm0 rfl rfl
  refine ⟨hl, ht, by rw [hr]; simp [mkCache], fun k v => ?_⟩
  obtain ⟨g0, g1, g2, g3, g4⟩ := insert_empty_zero hm hl ht k v
  exact ⟨g0, g2, g3, g4⟩

end LRUModel
